import Mathlib

/-!
Verification of the fused layer-norm forward kernel `_layer_norm_fwd_fused`
(`layer_norm_forward.py`).  The kernel is embedded shallowly: every buffer is a
total map from flat offsets to real numbers (the reals stand for the kernel's
floating-point scalars), each `for col in range(0, N, BLOCK_SIZE)` loop becomes
a recursive function on the loop counter `col`, the lane vector of width
`BLOCK_SIZE` becomes a lane-indexed map `ℕ → ℝ` (only lanes `< BLOCK_SIZE` are
ever summed or stored), and `tl.load p (mask) (other 0)` becomes an `if` on the
mask.  The Python loop's guard `col < N` and the requirement `0 < BLOCK_SIZE`
(a `range` step must be positive) guard the recursion.

The transcription keeps the source's quirks.  In particular the variance pass
line `x = tl.where(col < N, x - mean, others = 0.)` tests the scalar loop
counter `col`, not the lane-offset vector `off = col + tl.arange(0, BLOCK_SIZE)`,
so inside the loop the condition is always true and the subtraction of the mean
is applied to every lane, including the masked tail lanes that were loaded
as 0.  That is transcribed faithfully below as `if col < N then x - mean else 0`
with the scalar `col`.
-/

namespace LayerNorm

noncomputable section

/-- Memory state of the kernel: the five buffers the kernel touches plus the
weight buffer. `X`/`Y` are addressed by flat offset (row base `row * stride`
plus column), `W`/`B` by column, `Mean`/`Rstd` by row index. -/
structure LNState where
  X : ℕ → ℝ
  Y : ℕ → ℝ
  W : ℕ → ℝ
  B : ℕ → ℝ
  Mean : ℕ → ℝ
  Rstd : ℕ → ℝ

/-- Embedding of `tl.load(X + off, mask = off < N, other = 0.)` after
`X += row * stride`: a masked lane reads 0, an active lane reads the buffer at
the row base plus the offset. -/
def loadX (X : ℕ → ℝ) (base N off : ℕ) : ℝ :=
  if off < N then X (base + off) else 0

/-- Mean-pass loop of the kernel, from loop counter `col` with accumulator
vector `v` (lane-indexed): `_mean += tl.load(X + off, mask = off < N,
other = 0.)` for `off = col + i`, then `col += BLOCK_SIZE`. -/
def meanFrom (X : ℕ → ℝ) (base N B col : ℕ) (v : ℕ → ℝ) : ℕ → ℝ :=
  if _h : col < N ∧ 0 < B then
    meanFrom X base N B (col + B) (fun i => v i + loadX X base N (col + i))
  else v
termination_by N - col
decreasing_by omega

/-- Value `mean = tl.sum(_mean, axis = 0) / N` computed by the kernel:
the mean-pass accumulator is reduced over the `B` lanes and divided by `N`. -/
def meanVal (X : ℕ → ℝ) (base N B : ℕ) : ℝ :=
  (∑ i ∈ Finset.range B, meanFrom X base N B 0 (fun _ => 0) i) / N

/-- Variance-pass loop of the kernel, from counter `col` with accumulator `v`:
`x = tl.load(...)` masked with other 0, then
`x = tl.where(col < N, x - mean, others = 0.)` — the source tests the scalar
loop counter `col`, transcribed verbatim — then `_var += x * x`. -/
def varFrom (X : ℕ → ℝ) (base N B : ℕ) (mean : ℝ) (col : ℕ) (v : ℕ → ℝ) :
    ℕ → ℝ :=
  if _h : col < N ∧ 0 < B then
    varFrom X base N B mean (col + B) (fun i =>
      let x := loadX X base N (col + i)
      let xw := if col < N then x - mean else 0
      v i + xw * xw)
  else v
termination_by N - col
decreasing_by omega

/-- Value `var = tl.sum(_var, axis = 0) / N` computed by the kernel. -/
def varVal (X : ℕ → ℝ) (base N B : ℕ) : ℝ :=
  (∑ i ∈ Finset.range B, varFrom X base N B (meanVal X base N B) 0 (fun _ => 0) i) / N

/-- Value `rstd = 1 / tl.sqrt(var + eps)` computed by the kernel. -/
def rstdVal (X : ℕ → ℝ) (base N B : ℕ) (eps : ℝ) : ℝ :=
  1 / Real.sqrt (varVal X base N B + eps)

/-- Normalize-and-affine loop of the kernel, from counter `col`, updating the
output buffer `Y`: for each lane offset `off = col + i` with `off < N`,
`w`/`b` are loaded at `off`, `x` at the row base plus `off`, and
`y = (x - mean) * rstd * w + b` is stored at the row base plus `off`; other
addresses keep their previous contents.  An address `a` is a store target of
this chunk iff `base ≤ a` and `a - base` lies in `[col, col + B)` and is a
valid column (`< N`). -/
def yFrom (X Wv Bv : ℕ → ℝ) (base N B : ℕ) (mean rstd : ℝ) (col : ℕ)
    (Y : ℕ → ℝ) : ℕ → ℝ :=
  if _h : col < N ∧ 0 < B then
    yFrom X Wv Bv base N B mean rstd (col + B) (fun a =>
      if base ≤ a ∧ col ≤ a - base ∧ a - base < col + B ∧ a - base < N then
        (loadX X base N (a - base) - mean) * rstd * Wv (a - base) + Bv (a - base)
      else Y a)
  else Y
termination_by N - col
decreasing_by omega

/-- One program instance of `_layer_norm_fwd_fused` for program id `row`:
computes `mean`, `var`, `rstd` as the kernel does, stores `mean` and `rstd` at
index `row` of the `Mean`/`Rstd` buffers, and runs the normalize-and-affine
loop over the row's segment of `Y`.  `X`, `W`, `B` are only read. -/
def kernelRun (stride N BLOCK row : ℕ) (eps : ℝ) (s : LNState) : LNState :=
  let base := row * stride
  { s with
    Mean := Function.update s.Mean row (meanVal s.X base N BLOCK)
    Rstd := Function.update s.Rstd row (rstdVal s.X base N BLOCK eps)
    Y := yFrom s.X s.W s.B base N BLOCK (meanVal s.X base N BLOCK)
          (rstdVal s.X base N BLOCK eps) 0 s.Y }

/-! ## Basic lemmas about the loops -/

lemma meanFrom_step (X : ℕ → ℝ) (base N B col : ℕ) (v : ℕ → ℝ)
    (hc : col < N) (hB : 0 < B) :
    meanFrom X base N B col v
      = meanFrom X base N B (col + B) (fun i => v i + loadX X base N (col + i)) := by
  rw [meanFrom, dif_pos ⟨hc, hB⟩]

lemma meanFrom_stop (X : ℕ → ℝ) (base N B col : ℕ) (v : ℕ → ℝ)
    (hc : ¬ (col < N ∧ 0 < B)) :
    meanFrom X base N B col v = v := by
  rw [meanFrom, dif_neg hc]

lemma varFrom_step (X : ℕ → ℝ) (base N B : ℕ) (mean : ℝ) (col : ℕ) (v : ℕ → ℝ)
    (hc : col < N) (hB : 0 < B) :
    varFrom X base N B mean col v
      = varFrom X base N B mean (col + B) (fun i =>
          let x := loadX X base N (col + i)
          let xw := if col < N then x - mean else 0
          v i + xw * xw) := by
  rw [varFrom, dif_pos ⟨hc, hB⟩]

lemma varFrom_stop (X : ℕ → ℝ) (base N B : ℕ) (mean : ℝ) (col : ℕ) (v : ℕ → ℝ)
    (hc : ¬ (col < N ∧ 0 < B)) :
    varFrom X base N B mean col v = v := by
  rw [varFrom, dif_neg hc]

lemma yFrom_step (X Wv Bv : ℕ → ℝ) (base N B : ℕ) (mean rstd : ℝ) (col : ℕ)
    (Y : ℕ → ℝ) (hc : col < N) (hB : 0 < B) :
    yFrom X Wv Bv base N B mean rstd col Y
      = yFrom X Wv Bv base N B mean rstd (col + B) (fun a =>
          if base ≤ a ∧ col ≤ a - base ∧ a - base < col + B ∧ a - base < N then
            (loadX X base N (a - base) - mean) * rstd * Wv (a - base) + Bv (a - base)
          else Y a) := by
  rw [yFrom, dif_pos ⟨hc, hB⟩]

lemma yFrom_stop (X Wv Bv : ℕ → ℝ) (base N B : ℕ) (mean rstd : ℝ) (col : ℕ)
    (Y : ℕ → ℝ) (hc : ¬ (col < N ∧ 0 < B)) :
    yFrom X Wv Bv base N B mean rstd col Y = Y := by
  rw [yFrom, dif_neg hc]

lemma loadX_congr (X X' : ℕ → ℝ) (base N : ℕ)
    (hX : ∀ j, j < N → X (base + j) = X' (base + j)) (off : ℕ) :
    loadX X base N off = loadX X' base N off := by
  by_cases h : off < N
  · rw [loadX, loadX, if_pos h, if_pos h, hX off h]
  · rw [loadX, loadX, if_neg h, if_neg h]

lemma meanFrom_congr (X X' : ℕ → ℝ) (base N B : ℕ)
    (hX : ∀ j, j < N → X (base + j) = X' (base + j)) :
    ∀ col v, meanFrom X base N B col v = meanFrom X' base N B col v := by
  have H : ∀ k col v, N - col ≤ k →
      meanFrom X base N B col v = meanFrom X' base N B col v := by
    intro k
    induction k with
    | zero =>
      intro col v hk
      rw [meanFrom_stop X _ _ _ _ _ (by omega), meanFrom_stop X' _ _ _ _ _ (by omega)]
    | succ k ih =>
      intro col v hk
      by_cases h : col < N ∧ 0 < B
      · rw [meanFrom_step X _ _ _ _ _ h.1 h.2, meanFrom_step X' _ _ _ _ _ h.1 h.2]
        rw [show (fun i => v i + loadX X' base N (col + i))
            = (fun i => v i + loadX X base N (col + i)) from
          funext fun i => by rw [loadX_congr X X' base N hX]]
        exact ih (col + B) _ (by omega)
      · rw [meanFrom_stop X _ _ _ _ _ h, meanFrom_stop X' _ _ _ _ _ h]
  intro col v
  exact H (N - col) col v le_rfl

lemma varFrom_congr (X X' : ℕ → ℝ) (base N B : ℕ) (mean : ℝ)
    (hX : ∀ j, j < N → X (base + j) = X' (base + j)) :
    ∀ col v, varFrom X base N B mean col v = varFrom X' base N B mean col v := by
  have H : ∀ k col v, N - col ≤ k →
      varFrom X base N B mean col v = varFrom X' base N B mean col v := by
    intro k
    induction k with
    | zero =>
      intro col v hk
      rw [varFrom_stop X _ _ _ _ _ _ (by omega), varFrom_stop X' _ _ _ _ _ _ (by omega)]
    | succ k ih =>
      intro col v hk
      by_cases h : col < N ∧ 0 < B
      · rw [varFrom_step X _ _ _ _ _ _ h.1 h.2, varFrom_step X' _ _ _ _ _ _ h.1 h.2]
        rw [show (fun i =>
              let x := loadX X' base N (col + i)
              let xw := if col < N then x - mean else 0
              v i + xw * xw)
            = (fun i =>
              let x := loadX X base N (col + i)
              let xw := if col < N then x - mean else 0
              v i + xw * xw) from
          funext fun i => by rw [loadX_congr X X' base N hX]]
        exact ih (col + B) _ (by omega)
      · rw [varFrom_stop X _ _ _ _ _ _ h, varFrom_stop X' _ _ _ _ _ _ h]
  intro col v
  exact H (N - col) col v le_rfl

lemma yFrom_congr (X X' Wv Wv' Bv Bv' : ℕ → ℝ) (base N B : ℕ) (mean rstd : ℝ)
    (hX : ∀ j, j < N → X (base + j) = X' (base + j))
    (hW : ∀ j, j < N → Wv j = Wv' j)
    (hBv : ∀ j, j < N → Bv j = Bv' j) :
    ∀ col Y, yFrom X Wv Bv base N B mean rstd col Y
      = yFrom X' Wv' Bv' base N B mean rstd col Y := by
  have H : ∀ k col Y, N - col ≤ k →
      yFrom X Wv Bv base N B mean rstd col Y
        = yFrom X' Wv' Bv' base N B mean rstd col Y := by
    intro k
    induction k with
    | zero =>
      intro col Y hk
      rw [yFrom_stop X _ _ _ _ _ _ _ _ _ (by omega),
        yFrom_stop X' _ _ _ _ _ _ _ _ _ (by omega)]
    | succ k ih =>
      intro col Y hk
      by_cases h : col < N ∧ 0 < B
      · rw [yFrom_step X _ _ _ _ _ _ _ _ _ h.1 h.2,
          yFrom_step X' _ _ _ _ _ _ _ _ _ h.1 h.2]
        rw [show (fun a =>
              if base ≤ a ∧ col ≤ a - base ∧ a - base < col + B ∧ a - base < N then
                (loadX X' base N (a - base) - mean) * rstd * Wv' (a - base) + Bv' (a - base)
              else Y a)
            = (fun a =>
              if base ≤ a ∧ col ≤ a - base ∧ a - base < col + B ∧ a - base < N then
                (loadX X base N (a - base) - mean) * rstd * Wv (a - base) + Bv (a - base)
              else Y a) from funext fun a => by
          by_cases hm : base ≤ a ∧ col ≤ a - base ∧ a - base < col + B ∧ a - base < N
          · rw [if_pos hm, if_pos hm, loadX_congr X X' base N hX,
              hW (a - base) hm.2.2.2, hBv (a - base) hm.2.2.2]
          · rw [if_neg hm, if_neg hm]]
        exact ih (col + B) _ (by omega)
      · rw [yFrom_stop X _ _ _ _ _ _ _ _ _ h, yFrom_stop X' _ _ _ _ _ _ _ _ _ h]
  intro col Y
  exact H (N - col) col Y le_rfl


/-- Masked lanes load 0. -/
lemma loadX_of_ge (X : ℕ → ℝ) (base N off : ℕ) (h : N ≤ off) :
    loadX X base N off = 0 := by
  simp [loadX]
  omega

/-- Reduced over the lanes, the mean-pass accumulation from counter `col`
adds the masked loads at every offset in `[col, N)` (every executed chunk
covers `[col, col + B)`; offsets at and beyond `N` load 0). -/
lemma meanFrom_sum (X : ℕ → ℝ) (base N B : ℕ) (hB : 0 < B) :
    ∀ col v, (∑ i ∈ Finset.range B, meanFrom X base N B col v i)
      = (∑ i ∈ Finset.range B, v i) + ∑ j ∈ Finset.Ico col N, loadX X base N j := by
  have H : ∀ k col v, N - col ≤ k →
      (∑ i ∈ Finset.range B, meanFrom X base N B col v i)
        = (∑ i ∈ Finset.range B, v i) + ∑ j ∈ Finset.Ico col N, loadX X base N j := by
    intro k
    induction k with
    | zero =>
      intro col v hk
      rw [meanFrom, dif_neg (by omega)]
      rw [Finset.Ico_eq_empty (by omega)]
      simp
    | succ k ih =>
      intro col v hk
      by_cases hc : col < N
      · rw [meanFrom, dif_pos ⟨hc, hB⟩, ih (col + B) _ (by omega)]
        rw [Finset.sum_add_distrib]
        have hchunk : (∑ i ∈ Finset.range B, loadX X base N (col + i))
            = ∑ j ∈ Finset.Ico col (col + B), loadX X base N j := by
          rw [Finset.sum_Ico_eq_sum_range]
          simp
        by_cases hend : col + B ≤ N
        · rw [add_assoc, hchunk]
          congr 1
          rw [Finset.sum_Ico_consecutive _ (by omega) hend]
        · have h1 : (∑ j ∈ Finset.Ico col (col + B), loadX X base N j)
              = (∑ j ∈ Finset.Ico col N, loadX X base N j)
                + ∑ j ∈ Finset.Ico N (col + B), loadX X base N j := by
            rw [Finset.sum_Ico_consecutive _ (by omega) (by omega)]
          have h2 : (∑ j ∈ Finset.Ico N (col + B), loadX X base N j) = 0 := by
            apply Finset.sum_eq_zero
            intro j hj
            exact loadX_of_ge X base N j (Finset.mem_Ico.mp hj).1
          have h3 : (∑ j ∈ Finset.Ico (col + B) N, loadX X base N j) = 0 := by
            rw [Finset.Ico_eq_empty (by omega)]
            simp
          rw [add_assoc, hchunk, h1, h2, h3]
          ring
      · rw [meanFrom, dif_neg (by tauto)]
        rw [Finset.Ico_eq_empty (by omega)]
        simp
  intro col v
  exact H (N - col) col v le_rfl

/-- Addresses outside the row's valid segment `[base, base + N)` are never
written by the normalize-and-affine loop. -/
lemma yFrom_frame (X Wv Bv : ℕ → ℝ) (base N B : ℕ) (mean rstd : ℝ) :
    ∀ col Y a, a < base ∨ base + N ≤ a →
      yFrom X Wv Bv base N B mean rstd col Y a = Y a := by
  have H : ∀ k col Y a, N - col ≤ k → a < base ∨ base + N ≤ a →
      yFrom X Wv Bv base N B mean rstd col Y a = Y a := by
    intro k
    induction k with
    | zero =>
      intro col Y a hk ha
      rw [yFrom, dif_neg (by omega)]
    | succ k ih =>
      intro col Y a hk ha
      by_cases h : col < N ∧ 0 < B
      · rw [yFrom, dif_pos h, ih (col + B) _ a (by omega) ha]
        rw [if_neg (by omega)]
      · rw [yFrom, dif_neg h]
  intro col Y a ha
  exact H (N - col) col Y a le_rfl ha

/-- Addresses whose column lies below the current loop counter are never
written by the remaining chunks. -/
lemma yFrom_lower (X Wv Bv : ℕ → ℝ) (base N B : ℕ) (mean rstd : ℝ) :
    ∀ col Y a, a - base < col →
      yFrom X Wv Bv base N B mean rstd col Y a = Y a := by
  have H : ∀ k col Y a, N - col ≤ k → a - base < col →
      yFrom X Wv Bv base N B mean rstd col Y a = Y a := by
    intro k
    induction k with
    | zero =>
      intro col Y a hk ha
      rw [yFrom, dif_neg (by omega)]
    | succ k ih =>
      intro col Y a hk ha
      by_cases h : col < N ∧ 0 < B
      · rw [yFrom, dif_pos h, ih (col + B) _ a (by omega) (by omega)]
        rw [if_neg (by omega)]
      · rw [yFrom, dif_neg h]
  intro col Y a ha
  exact H (N - col) col Y a le_rfl ha

/-- Value stored by the normalize-and-affine loop at a valid column `j`
(`col ≤ j < N`): exactly `(x - mean) * rstd * w + b`. -/
lemma yFrom_get (X Wv Bv : ℕ → ℝ) (base N B : ℕ) (mean rstd : ℝ) (hB : 0 < B) :
    ∀ col Y j, col ≤ j → j < N →
      yFrom X Wv Bv base N B mean rstd col Y (base + j)
        = (loadX X base N j - mean) * rstd * Wv j + Bv j := by
  have H : ∀ k col Y j, N - col ≤ k → col ≤ j → j < N →
      yFrom X Wv Bv base N B mean rstd col Y (base + j)
        = (loadX X base N j - mean) * rstd * Wv j + Bv j := by
    intro k
    induction k with
    | zero =>
      intro col Y j hk hcj hjN
      omega
    | succ k ih =>
      intro col Y j hk hcj hjN
      rw [yFrom, dif_pos ⟨by omega, hB⟩]
      by_cases hj : col + B ≤ j
      · exact ih (col + B) _ j (by omega) hj hjN
      · rw [yFrom_lower X Wv Bv base N B mean rstd (col + B) _ (base + j) (by omega)]
        rw [if_pos (by omega)]
        congr 1 <;> rw [Nat.add_sub_cancel_left]
  intro col Y j hcj hjN
  exact H (N - col) col Y j le_rfl hcj hjN

/-! ## Concrete inputs used by the scenario claims and the witnesses -/

/-- Row contents `[1, 2, 3, 4, ...]`: offset `a` holds the value `a + 1`. -/
def X5 : ℕ → ℝ := fun a => (a : ℝ) + 1

/-- State for the `N = 4` scenario: `X = [1,2,3,4]`, `W` all ones, `B` all
zeros, `Y`, `Mean`, `Rstd` initially zero. -/
def s5 : LNState :=
  ⟨X5, fun _ => 0, fun _ => 1, fun _ => 0, fun _ => 0, fun _ => 0⟩

/-- Constant row: every offset holds 2. -/
def Xc : ℕ → ℝ := fun _ => 2

/-- State for the `N = 5`, block-size-4 tail-masking scenario: `X` constant 2,
`W` all ones, `B` all zeros. -/
def s7 : LNState :=
  ⟨Xc, fun _ => 0, fun _ => 1, fun _ => 0, fun _ => 0, fun _ => 0⟩

/-! ## Claim theorems -/

/-- Claim C3: for every row (with `N ≥ 1`), the stored `Mean[row]` equals the
arithmetic mean of that row's `N` elements — the mean pass loads masked lanes
as 0, accumulates chunks into a block-wide vector, reduces and divides
by `N` (the embedding computes with exact reals, so the equality is exact). -/
theorem claim3 (stride N BLOCK row : ℕ) (eps : ℝ) (s : LNState)
    (hB : 0 < BLOCK) (hN : 0 < N) :
    (kernelRun stride N BLOCK row eps s).Mean row
      = (∑ j ∈ Finset.range N, s.X (row * stride + j)) / N := by
  show Function.update s.Mean row (meanVal s.X (row * stride) N BLOCK) row = _
  rw [Function.update_same, meanVal]
  congr 1
  rw [meanFrom_sum s.X (row * stride) N BLOCK hB 0 (fun _ => 0)]
  simp only [Finset.sum_const_zero, zero_add]
  rw [Finset.range_eq_Ico]
  exact Finset.sum_congr rfl fun j hj => by
    rw [loadX, if_pos (Finset.mem_Ico.mp hj).2]

/-- Witness for C3 at `N = 4`, block size 4, row 0, `X = [1,2,3,4]`. -/
theorem claim3_witness :
    (kernelRun 4 4 4 0 (1e-5) s5).Mean 0
      = (∑ j ∈ Finset.range 4, s5.X (0 * 4 + j)) / 4 :=
  claim3 4 4 4 0 (1e-5) s5 (by decide) (by decide)

/-- Claim C2: for every row and every valid column `j < N`, the stored output
satisfies `Y[row,j] = (X[row,j] - mean[row]) * rstd[row] * W[j] + B[j]`, where
`mean[row]` and `rstd[row]` are the values the kernel stored for that row (the
embedding computes with exact reals, so the equality is exact). -/
theorem claim2 (stride N BLOCK row j : ℕ) (eps : ℝ) (s : LNState)
    (hB : 0 < BLOCK) (hj : j < N) :
    (kernelRun stride N BLOCK row eps s).Y (row * stride + j)
      = (s.X (row * stride + j) - (kernelRun stride N BLOCK row eps s).Mean row)
          * (kernelRun stride N BLOCK row eps s).Rstd row * s.W j + s.B j := by
  show yFrom s.X s.W s.B (row * stride) N BLOCK (meanVal s.X (row * stride) N BLOCK)
      (rstdVal s.X (row * stride) N BLOCK eps) 0 s.Y (row * stride + j)
    = (s.X (row * stride + j)
        - Function.update s.Mean row (meanVal s.X (row * stride) N BLOCK) row)
        * Function.update s.Rstd row (rstdVal s.X (row * stride) N BLOCK eps) row
        * s.W j + s.B j
  rw [Function.update_same, Function.update_same,
    yFrom_get s.X s.W s.B (row * stride) N BLOCK _ _ hB 0 s.Y j (Nat.zero_le j) hj,
    loadX, if_pos hj]

/-- Witness for C2 at `N = 4`, block size 4, row 0, column 2. -/
theorem claim2_witness :
    (kernelRun 4 4 4 0 (1e-5) s5).Y (0 * 4 + 2)
      = (s5.X (0 * 4 + 2) - (kernelRun 4 4 4 0 (1e-5) s5).Mean 0)
          * (kernelRun 4 4 4 0 (1e-5) s5).Rstd 0 * s5.W 2 + s5.B 2 :=
  claim2 4 4 4 0 2 (1e-5) s5 (by decide) (by decide)

/-- Claim C10: the kernel never writes `X`, `W` or `B`; the only locations it
stores to are the row's valid segment of `Y` (`[row*stride, row*stride + N)`),
`Mean[row]` and `Rstd[row]` — everything else is unchanged. -/
theorem claim10 (stride N BLOCK row : ℕ) (eps : ℝ) (s : LNState) :
    (kernelRun stride N BLOCK row eps s).X = s.X ∧
    (kernelRun stride N BLOCK row eps s).W = s.W ∧
    (kernelRun stride N BLOCK row eps s).B = s.B ∧
    (∀ i, i ≠ row → (kernelRun stride N BLOCK row eps s).Mean i = s.Mean i) ∧
    (∀ i, i ≠ row → (kernelRun stride N BLOCK row eps s).Rstd i = s.Rstd i) ∧
    (∀ a, a < row * stride ∨ row * stride + N ≤ a →
      (kernelRun stride N BLOCK row eps s).Y a = s.Y a) := by
  refine ⟨rfl, rfl, rfl, ?_, ?_, ?_⟩
  · intro i hi
    exact Function.update_noteq hi _ _
  · intro i hi
    exact Function.update_noteq hi _ _
  · intro a ha
    exact yFrom_frame s.X s.W s.B (row * stride) N BLOCK _ _ 0 s.Y a ha

/-- Claim C6: every load and store is masked to column indices `< N`.  In the
embedding this is the extensional consequence: the kernel's outputs depend
only on `X` at the row's valid columns and on `W`, `B` below index `N` (so
padding positions are never read), and `Y` outside the row's valid segment is
never written. -/
theorem claim6 (stride N BLOCK row : ℕ) (eps : ℝ) (s s' : LNState)
    (hX : ∀ j, j < N → s.X (row * stride + j) = s'.X (row * stride + j))
    (hW : ∀ j, j < N → s.W j = s'.W j)
    (hBv : ∀ j, j < N → s.B j = s'.B j)
    (hY : s.Y = s'.Y) :
    (kernelRun stride N BLOCK row eps s).Mean row
        = (kernelRun stride N BLOCK row eps s').Mean row ∧
    (kernelRun stride N BLOCK row eps s).Rstd row
        = (kernelRun stride N BLOCK row eps s').Rstd row ∧
    (kernelRun stride N BLOCK row eps s).Y = (kernelRun stride N BLOCK row eps s').Y ∧
    (∀ a, a < row * stride ∨ row * stride + N ≤ a →
      (kernelRun stride N BLOCK row eps s).Y a = s.Y a) := by
  have hmean : meanVal s.X (row * stride) N BLOCK
      = meanVal s'.X (row * stride) N BLOCK := by
    rw [meanVal, meanVal, meanFrom_congr s.X s'.X (row * stride) N BLOCK hX]
  have hvar : varVal s.X (row * stride) N BLOCK
      = varVal s'.X (row * stride) N BLOCK := by
    rw [varVal, varVal, hmean, varFrom_congr s.X s'.X (row * stride) N BLOCK _ hX]
  have hrstd : rstdVal s.X (row * stride) N BLOCK eps
      = rstdVal s'.X (row * stride) N BLOCK eps := by
    rw [rstdVal, rstdVal, hvar]
  refine ⟨?_, ?_, ?_, ?_⟩
  · show Function.update s.Mean row (meanVal s.X (row * stride) N BLOCK) row
      = Function.update s'.Mean row (meanVal s'.X (row * stride) N BLOCK) row
    rw [Function.update_same, Function.update_same, hmean]
  · show Function.update s.Rstd row (rstdVal s.X (row * stride) N BLOCK eps) row
      = Function.update s'.Rstd row (rstdVal s'.X (row * stride) N BLOCK eps) row
    rw [Function.update_same, Function.update_same, hrstd]
  · show yFrom s.X s.W s.B (row * stride) N BLOCK (meanVal s.X (row * stride) N BLOCK)
        (rstdVal s.X (row * stride) N BLOCK eps) 0 s.Y
      = yFrom s'.X s'.W s'.B (row * stride) N BLOCK (meanVal s'.X (row * stride) N BLOCK)
        (rstdVal s'.X (row * stride) N BLOCK eps) 0 s'.Y
    rw [hmean, hrstd, hY,
      yFrom_congr s.X s'.X s.W s'.W s.B s'.B (row * stride) N BLOCK _ _ hX hW hBv]
  · intro a ha
    exact yFrom_frame s.X s.W s.B (row * stride) N BLOCK _ _ 0 s.Y a ha

/-- Witness for C6: a state whose padding column (offset 4, beyond `N = 4`)
holds a different value produces the same output `Y`. -/
theorem claim6_witness :
    (kernelRun 4 4 4 0 (1e-5) s5).Y
      = (kernelRun 4 4 4 0 (1e-5)
          { s5 with X := fun a => if a < 4 then X5 a else 37 }).Y :=
  (claim6 4 4 4 0 (1e-5) s5 { s5 with X := fun a => if a < 4 then X5 a else 37 }
    (fun j hj => by simp [s5, hj])
    (fun j _ => rfl) (fun j _ => rfl) rfl).2.2.1

/-! ## Relational (big-step) semantics of the kernel

To state determinism, the kernel is also given a relational big-step
semantics mirroring the control flow of the source: one inductive relation
per `for` loop (`exit` when the counter has reached `N`, `step` for one more
chunk), composed sequentially.  `KernelExec s t` holds iff a run of the
program instance from state `s` can end in state `t`. -/

/-- Big-step relation of the mean-pass loop. -/
inductive MeanLoop (X : ℕ → ℝ) (base N B : ℕ) : ℕ → (ℕ → ℝ) → (ℕ → ℝ) → Prop
  | exit (col : ℕ) (v : ℕ → ℝ) (hc : ¬ col < N) : MeanLoop X base N B col v v
  | step (col : ℕ) (v w : ℕ → ℝ) (hc : col < N)
      (hrest : MeanLoop X base N B (col + B)
        (fun i => v i + loadX X base N (col + i)) w) :
      MeanLoop X base N B col v w

/-- Big-step relation of the variance-pass loop. -/
inductive VarLoop (X : ℕ → ℝ) (base N B : ℕ) (mean : ℝ) :
    ℕ → (ℕ → ℝ) → (ℕ → ℝ) → Prop
  | exit (col : ℕ) (v : ℕ → ℝ) (hc : ¬ col < N) : VarLoop X base N B mean col v v
  | step (col : ℕ) (v w : ℕ → ℝ) (hc : col < N)
      (hrest : VarLoop X base N B mean (col + B)
        (fun i =>
          let x := loadX X base N (col + i)
          let xw := if col < N then x - mean else 0
          v i + xw * xw) w) :
      VarLoop X base N B mean col v w

/-- Big-step relation of the normalize-and-affine loop. -/
inductive YLoop (X Wv Bv : ℕ → ℝ) (base N B : ℕ) (mean rstd : ℝ) :
    ℕ → (ℕ → ℝ) → (ℕ → ℝ) → Prop
  | exit (col : ℕ) (Y : ℕ → ℝ) (hc : ¬ col < N) :
      YLoop X Wv Bv base N B mean rstd col Y Y
  | step (col : ℕ) (Y Z : ℕ → ℝ) (hc : col < N)
      (hrest : YLoop X Wv Bv base N B mean rstd (col + B)
        (fun a =>
          if base ≤ a ∧ col ≤ a - base ∧ a - base < col + B ∧ a - base < N then
            (loadX X base N (a - base) - mean) * rstd * Wv (a - base) + Bv (a - base)
          else Y a) Z) :
      YLoop X Wv Bv base N B mean rstd col Y Z

/-- Big-step execution of one program instance: the three loops run in
sequence, then the results are written out exactly as the source does. -/
inductive KernelExec (stride N BLOCK row : ℕ) (eps : ℝ) (s : LNState) :
    LNState → Prop
  | run (mv vv yv : ℕ → ℝ)
      (hmean : MeanLoop s.X (row * stride) N BLOCK 0 (fun _ => 0) mv)
      (hvar : VarLoop s.X (row * stride) N BLOCK
        ((∑ i ∈ Finset.range BLOCK, mv i) / N) 0 (fun _ => 0) vv)
      (hy : YLoop s.X s.W s.B (row * stride) N BLOCK
        ((∑ i ∈ Finset.range BLOCK, mv i) / N)
        (1 / Real.sqrt ((∑ i ∈ Finset.range BLOCK, vv i) / N + eps)) 0 s.Y yv) :
      KernelExec stride N BLOCK row eps s
        { s with
          Mean := Function.update s.Mean row
            ((∑ i ∈ Finset.range BLOCK, mv i) / N)
          Rstd := Function.update s.Rstd row
            (1 / Real.sqrt ((∑ i ∈ Finset.range BLOCK, vv i) / N + eps))
          Y := yv }

/-- Adequacy of the mean-pass loop relation: it holds exactly of the
functional unrolling. -/
lemma meanLoop_eq (X : ℕ → ℝ) (base N B : ℕ) (hB : 0 < B) (col : ℕ)
    (v w : ℕ → ℝ) :
    MeanLoop X base N B col v w ↔ w = meanFrom X base N B col v := by
  constructor
  · intro h
    induction h with
    | exit col v hc => rw [meanFrom_stop X base N B col v (by tauto)]
    | step col v w hc hrest ih => rw [meanFrom_step X base N B col v hc hB]; exact ih
  · rintro rfl
    have H : ∀ k col v, N - col ≤ k →
        MeanLoop X base N B col v (meanFrom X base N B col v) := by
      intro k
      induction k with
      | zero =>
        intro col v hk
        rw [meanFrom_stop X base N B col v (by omega)]
        exact .exit col v (by omega)
      | succ k ih =>
        intro col v hk
        by_cases hc : col < N
        · rw [meanFrom_step X base N B col v hc hB]
          exact .step col v _ hc (ih (col + B) _ (by omega))
        · rw [meanFrom_stop X base N B col v (by tauto)]
          exact .exit col v hc
    exact H (N - col) col v le_rfl

/-- Adequacy of the variance-pass loop relation. -/
lemma varLoop_eq (X : ℕ → ℝ) (base N B : ℕ) (mean : ℝ) (hB : 0 < B) (col : ℕ)
    (v w : ℕ → ℝ) :
    VarLoop X base N B mean col v w ↔ w = varFrom X base N B mean col v := by
  constructor
  · intro h
    induction h with
    | exit col v hc => rw [varFrom_stop X base N B mean col v (by tauto)]
    | step col v w hc hrest ih => rw [varFrom_step X base N B mean col v hc hB]; exact ih
  · rintro rfl
    have H : ∀ k col v, N - col ≤ k →
        VarLoop X base N B mean col v (varFrom X base N B mean col v) := by
      intro k
      induction k with
      | zero =>
        intro col v hk
        rw [varFrom_stop X base N B mean col v (by omega)]
        exact .exit col v (by omega)
      | succ k ih =>
        intro col v hk
        by_cases hc : col < N
        · rw [varFrom_step X base N B mean col v hc hB]
          exact .step col v _ hc (ih (col + B) _ (by omega))
        · rw [varFrom_stop X base N B mean col v (by tauto)]
          exact .exit col v hc
    exact H (N - col) col v le_rfl

/-- Adequacy of the normalize-and-affine loop relation. -/
lemma yLoop_eq (X Wv Bv : ℕ → ℝ) (base N B : ℕ) (mean rstd : ℝ) (hB : 0 < B)
    (col : ℕ) (Y Z : ℕ → ℝ) :
    YLoop X Wv Bv base N B mean rstd col Y Z ↔
      Z = yFrom X Wv Bv base N B mean rstd col Y := by
  constructor
  · intro h
    induction h with
    | exit col Y hc => rw [yFrom_stop X Wv Bv base N B mean rstd col Y (by tauto)]
    | step col Y Z hc hrest ih => rw [yFrom_step X Wv Bv base N B mean rstd col Y hc hB]; exact ih
  · rintro rfl
    have H : ∀ k col Y, N - col ≤ k →
        YLoop X Wv Bv base N B mean rstd col Y
          (yFrom X Wv Bv base N B mean rstd col Y) := by
      intro k
      induction k with
      | zero =>
        intro col Y hk
        rw [yFrom_stop X Wv Bv base N B mean rstd col Y (by omega)]
        exact .exit col Y (by omega)
      | succ k ih =>
        intro col Y hk
        by_cases hc : col < N
        · rw [yFrom_step X Wv Bv base N B mean rstd col Y hc hB]
          exact .step col Y _ hc (ih (col + B) _ (by omega))
        · rw [yFrom_stop X Wv Bv base N B mean rstd col Y (by tauto)]
          exact .exit col Y hc
    exact H (N - col) col Y le_rfl

/-- Claim C9: the kernel is deterministic — a run from state `s` can end only
in `kernelRun s`, and such a run exists, so two runs on identical inputs
produce identical `Mean`, `Rstd` and `Y`; the output is a pure function of the
inputs with no randomness. -/
theorem claim9 (stride N BLOCK row : ℕ) (eps : ℝ) (s t : LNState)
    (hB : 0 < BLOCK) :
    KernelExec stride N BLOCK row eps s t
      ↔ t = kernelRun stride N BLOCK row eps s := by
  constructor
  · intro h
    cases h with
    | run mv vv yv hmean hvar hy =>
      rw [meanLoop_eq _ _ _ _ hB] at hmean
      subst hmean
      rw [varLoop_eq _ _ _ _ _ hB] at hvar
      subst hvar
      rw [yLoop_eq _ _ _ _ _ _ _ _ hB] at hy
      subst hy
      rw [kernelRun]
      rfl
  · rintro rfl
    rw [kernelRun]
    exact KernelExec.run
      (meanFrom s.X (row * stride) N BLOCK 0 (fun _ => 0))
      (varFrom s.X (row * stride) N BLOCK (meanVal s.X (row * stride) N BLOCK)
        0 (fun _ => 0))
      (yFrom s.X s.W s.B (row * stride) N BLOCK (meanVal s.X (row * stride) N BLOCK)
        (rstdVal s.X (row * stride) N BLOCK eps) 0 s.Y)
      ((meanLoop_eq _ _ _ _ hB _ _ _).mpr rfl)
      (by rw [varLoop_eq _ _ _ _ _ hB]; rfl)
      (by rw [yLoop_eq _ _ _ _ _ _ _ _ hB]; rfl)

/-- Witness for C9: a concrete execution of the kernel on the `N = 4`
scenario state ends in the state the functional embedding computes. -/
theorem claim9_witness :
    KernelExec 4 4 4 0 (1e-5) s5 (kernelRun 4 4 4 0 (1e-5) s5) :=
  (claim9 4 4 4 0 (1e-5) s5 (kernelRun 4 4 4 0 (1e-5) s5) (by decide)).mpr rfl


/-! ## Concrete evaluations -/

lemma meanVal_X5 : meanVal X5 0 4 4 = 5 / 2 := by
  simp [meanVal, meanFrom, loadX, Finset.sum_range_succ, X5]
  norm_num

lemma varVal_X5 : varVal X5 0 4 4 = 5 / 4 := by
  rw [varVal, meanVal_X5]
  simp [varFrom, loadX, Finset.sum_range_succ, X5]
  norm_num

lemma meanVal_Xc : meanVal Xc 0 5 4 = 2 := by
  simp [meanVal, meanFrom, loadX, Finset.sum_range_succ, Xc]
  norm_num

lemma varVal_Xc : varVal Xc 0 5 4 = 12 / 5 := by
  rw [varVal, meanVal_Xc]
  simp [varFrom, loadX, Finset.sum_range_succ, Xc]
  norm_num

lemma sqrt5_lb : (1.1180 : ℝ) < Real.sqrt (5 / 4 + 1e-5) :=
  (Real.lt_sqrt (by norm_num)).mpr (by norm_num)

lemma sqrt5_ub : Real.sqrt (5 / 4 + 1e-5) < 1.11806 :=
  (Real.sqrt_lt' (by norm_num)).mpr (by norm_num)

lemma sqrt5_pos : (0 : ℝ) < Real.sqrt (5 / 4 + 1e-5) :=
  Real.sqrt_pos.mpr (by norm_num)

lemma recip5_lb : (0.89440 : ℝ) < 1 / Real.sqrt (5 / 4 + 1e-5) := by
  rw [lt_div_iff₀ sqrt5_pos]
  nlinarith [sqrt5_ub]

lemma recip5_ub : 1 / Real.sqrt (5 / 4 + 1e-5) < 0.89446 := by
  rw [div_lt_iff₀ sqrt5_pos]
  nlinarith [sqrt5_lb]

lemma rstd_s5 : rstdVal X5 0 4 4 (1e-5) = 1 / Real.sqrt (5 / 4 + 1e-5) := by
  rw [rstdVal, varVal_X5]

/-- Claim C5: concrete scenario `N = 4`, block size 4, `X` row `[1,2,3,4]`,
`W` all ones, `B` all zeros, `eps = 1e-5`: the kernel produces `mean = 2.5`,
variance `1.25`, `rstd ≈ 0.8944` and `Y ≈ [-1.3416, -0.4472, 0.4472, 1.3416]`
(the approximate values within `10^-3`). -/
theorem claim5 :
    (kernelRun 4 4 4 0 (1e-5) s5).Mean 0 = 2.5 ∧
    varVal s5.X (0 * 4) 4 4 = 1.25 ∧
    |(kernelRun 4 4 4 0 (1e-5) s5).Rstd 0 - 0.8944| < 1e-3 ∧
    |(kernelRun 4 4 4 0 (1e-5) s5).Y 0 - (-1.3416)| < 1e-3 ∧
    |(kernelRun 4 4 4 0 (1e-5) s5).Y 1 - (-0.4472)| < 1e-3 ∧
    |(kernelRun 4 4 4 0 (1e-5) s5).Y 2 - 0.4472| < 1e-3 ∧
    |(kernelRun 4 4 4 0 (1e-5) s5).Y 3 - 1.3416| < 1e-3 := by
  have hM : (kernelRun 4 4 4 0 (1e-5) s5).Mean 0 = 5 / 2 := by
    show Function.update s5.Mean 0 (meanVal s5.X (0 * 4) 4 4) 0 = 5 / 2
    rw [Function.update_same]
    exact meanVal_X5
  have hR : (kernelRun 4 4 4 0 (1e-5) s5).Rstd 0 = 1 / Real.sqrt (5 / 4 + 1e-5) := by
    show Function.update s5.Rstd 0 (rstdVal s5.X (0 * 4) 4 4 (1e-5)) 0 = _
    rw [Function.update_same]
    exact rstd_s5
  have hY : ∀ j, j < 4 → (kernelRun 4 4 4 0 (1e-5) s5).Y j
      = ((j : ℝ) + 1 - 5 / 2) * (1 / Real.sqrt (5 / 4 + 1e-5)) * 1 + 0 := by
    intro j hj
    show yFrom s5.X s5.W s5.B (0 * 4) 4 4 (meanVal s5.X (0 * 4) 4 4)
        (rstdVal s5.X (0 * 4) 4 4 (1e-5)) 0 s5.Y j = _
    rw [show s5.X = X5 from rfl, show (0 * 4 : ℕ) = 0 from rfl, meanVal_X5, rstd_s5]
    rw [show j = 0 + j from (Nat.zero_add j).symm]
    rw [yFrom_get X5 s5.W s5.B 0 4 4 _ _ (by norm_num) 0 s5.Y j (Nat.zero_le j) hj]
    rw [loadX, if_pos hj]
    simp [s5, X5]
  refine ⟨by rw [hM]; norm_num, ?_, ?_, ?_, ?_, ?_, ?_⟩
  · show varVal X5 0 4 4 = 1.25
    rw [varVal_X5]
    norm_num
  · rw [hR, abs_lt]
    constructor <;> nlinarith [recip5_lb, recip5_ub]
  · rw [hY 0 (by norm_num), abs_lt]
    push_cast
    constructor <;> nlinarith [recip5_lb, recip5_ub]
  · rw [hY 1 (by norm_num), abs_lt]
    push_cast
    constructor <;> nlinarith [recip5_lb, recip5_ub]
  · rw [hY 2 (by norm_num), abs_lt]
    push_cast
    constructor <;> nlinarith [recip5_lb, recip5_ub]
  · rw [hY 3 (by norm_num), abs_lt]
    push_cast
    constructor <;> nlinarith [recip5_lb, recip5_ub]


/-- Claim C1 evaluation: at `N = 5`, block size 4, row constant 2 (so the row
mean is 2 and every exact squared deviation is 0), the kernel's accumulated
variance value is `12/5`, not 0: each of the 3 masked tail lanes contributes
`mean^2 = 4` to the variance sum, because the zeroing `tl.where` tests the
scalar loop counter instead of the lane offsets. -/
theorem claim1_eval :
    varVal Xc 0 5 4 = 12 / 5 ∧
    (∑ j ∈ Finset.range 5, (Xc j - meanVal Xc 0 5 4) ^ 2) = 0 := by
  refine ⟨varVal_Xc, ?_⟩
  rw [meanVal_Xc]
  simp [Finset.sum_range_succ, Xc]

/-- Claim C4 evaluation: at the same input the kernel's stored reciprocal
standard deviation `rstdVal` is strictly below 1, while the value the claim
demands — `1 / sqrt(population variance + eps)` with `eps = 1` — equals 1
(the population variance of the constant row is 0). -/
theorem claim4_eval :
    rstdVal Xc 0 5 4 1 < 1 ∧
    1 / Real.sqrt ((∑ j ∈ Finset.range 5, (Xc j - meanVal Xc 0 5 4) ^ 2) / 5 + 1) = 1 := by
  constructor
  · rw [rstdVal, varVal_Xc]
    rw [div_lt_one (Real.sqrt_pos.mpr (by norm_num))]
    exact (Real.lt_sqrt (by norm_num)).mpr (by norm_num)
  · rw [meanVal_Xc]
    rw [show (∑ j ∈ Finset.range 5, (Xc j - 2) ^ 2) = 0 from by
      simp [Finset.sum_range_succ, Xc]]
    rw [show (0 : ℝ) / 5 + 1 = 1 by norm_num, Real.sqrt_one]
    norm_num

/-- Claim C7 evaluation: the kernel stores `Mean[0] = 2` for the constant row,
but the stored `Rstd[0]` is strictly below 1 and therefore differs from the
statistic over exactly the row's 5 elements, `1 / sqrt(0 + 1) = 1`: the stored
value is contaminated by the masked tail lanes. -/
theorem claim7_eval :
    (kernelRun 8 5 4 0 1 s7).Mean 0 = 2 ∧
    (kernelRun 8 5 4 0 1 s7).Rstd 0 < 1 ∧
    1 / Real.sqrt ((∑ j ∈ Finset.range 5,
        (s7.X (0 * 8 + j) - (kernelRun 8 5 4 0 1 s7).Mean 0) ^ 2) / 5 + 1) = 1 := by
  have hM : (kernelRun 8 5 4 0 1 s7).Mean 0 = 2 := by
    show Function.update s7.Mean 0 (meanVal s7.X (0 * 8) 5 4) 0 = 2
    rw [Function.update_same]
    exact meanVal_Xc
  refine ⟨hM, ?_, ?_⟩
  · show Function.update s7.Rstd 0 (rstdVal s7.X (0 * 8) 5 4 1) 0 < 1
    rw [Function.update_same]
    show rstdVal Xc 0 5 4 1 < 1
    rw [rstdVal, varVal_Xc]
    rw [div_lt_one (Real.sqrt_pos.mpr (by norm_num))]
    exact (Real.lt_sqrt (by norm_num)).mpr (by norm_num)
  · rw [hM]
    rw [show (∑ j ∈ Finset.range 5, (s7.X (0 * 8 + j) - 2) ^ 2) = 0 from by
      simp [Finset.sum_range_succ, s7, Xc]]
    rw [show (0 : ℝ) / 5 + 1 = 1 by norm_num, Real.sqrt_one]
    norm_num

end

end LayerNorm


